import Mathlib

/-!
Shallow embedding of the `kdtree` Go package (files `kdtree.go`): a k-d tree
over k-dimensional points with median-split construction (`New`/`nk2`) and
branch-and-bound nearest-neighbor search (`Nearest`/`nn`).

Modelling conventions:
* `float64` coordinates are modelled as `ℚ` (exact arithmetic); the distance
  values that may be `math.Inf(1)` are modelled as `WithTop ℚ`, with `⊤`
  playing the role of `+Inf` (IEEE comparisons `Inf < Inf = false`,
  `x < Inf = true` for finite `x` agree with the `WithTop` order).
* Go slices of points are `List Point`; in-range indexing `p[i]` is
  `List.getD p i 0`.  A separate `Option`-valued ("checked") variant models
  the Go run-time panic on out-of-range indexing as `none`.
* `sort.Sort(part{exset, split})` is modelled by the stable
  `List.insertionSort` on the coordinate at `split` (Go's sort is
  unspecified on ties; for the concrete inputs used below Go's small-slice
  insertion sort produces exactly this stable order).
* the recursion of `nk2` is on shrinking sublists, embedded with an explicit
  fuel argument that starts at the list length (always sufficient, see
  the fuel bound used in every proof).
* the in-place mutation effects (the caller's slice reordered by `nk2`,
  bounding-box narrowing through `HyperRect.Copy`) are modelled by
  `buildArrF` (final contents of the caller's slice) and by a store-passing
  variant `nnRef` of the search where `Point` values live in an explicit
  store and `Copy` allocates fresh cells.
-/

namespace Kdtree

/-- A k-dimensional point (`type Point []float64`). -/
abbrev Point := List ℚ

/-- Model of `Point.Sqd`: sum over the dimensions of `p` of the squared
coordinate differences.  Total model: it silently stops when `q` is
exhausted (the in-range behavior, i.e. `len q ≥ len p`, is the faithful one;
the panicking out-of-range case is modelled separately by `SqdChecked`). -/
def Sqd : Point → Point → ℚ
  | [], _ => 0
  | _ :: _, [] => 0
  | a :: p, b :: q => (a - b) * (a - b) + Sqd p q

/-- Model of `Point.Sqd` with the Go panic made explicit: the loop ranges
over `p` and accesses `q[dim]`; if `q` is shorter than `p` the access
`q[dim]` is out of range and the Go program panics, modelled as `none`. -/
def SqdChecked : Point → Point → Option ℚ
  | [], _ => some 0
  | _ :: _, [] => none
  | a :: p, b :: q => (SqdChecked p q).map fun s => (a - b) * (a - b) + s

/-- Model of `type HyperRect struct { Min, Max Point }`. -/
structure HyperRect where
  Min : Point
  Max : Point
deriving DecidableEq

/-- Model of `HyperRect.Copy`.  In the value-semantics embedding the deep
copy is just the value itself; the aliasing behavior the Go method exists
to prevent is modelled separately by the store-passing search `nnRef`. -/
def HyperRect.Copy (hr : HyperRect) : HyperRect :=
  { Min := hr.Min, Max := hr.Max }

/-- Model of `kdNode` (`domElt`, `split`, `left`, `right`); the Go `*kdNode`
nil pointer is the `nil` constructor. -/
inductive KdNode : Type where
  | nil : KdNode
  | node (domElt : Point) (split : ℕ) (left right : KdNode) : KdNode
deriving DecidableEq

/-- All points stored in a subtree (each node contributes its `domElt`). -/
def KdNode.points : KdNode → List Point
  | .nil => []
  | .node d _ l r => d :: (KdNode.points l ++ KdNode.points r)

/-- Model of `type KdTree struct { n *kdNode; Bounds HyperRect }`. -/
structure KdTree where
  n : KdNode
  Bounds : HyperRect

/-- Comparison used by `part.Less`: order points by the coordinate at the
dimension `dPart`. -/
def ptLE (dPart : ℕ) (p q : Point) : Prop :=
  p.getD dPart 0 ≤ q.getD dPart 0

instance (dPart : ℕ) : DecidableRel (ptLE dPart) := fun p q =>
  inferInstanceAs (Decidable (p.getD dPart 0 ≤ q.getD dPart 0))

instance (dPart : ℕ) : IsTotal Point (ptLE dPart) :=
  ⟨fun p q => le_total (p.getD dPart 0) (q.getD dPart 0)⟩

instance (dPart : ℕ) : IsTrans Point (ptLE dPart) :=
  ⟨fun _ _ _ h h2 => le_trans h h2⟩

/-- Model of the pivot-advancing loop of `nk2`:
`for m+1 < len(exset) && exset[m+1][split] == d[split] { m++ }`.
`rest` is `exset[m+1:]`, so the loop condition `m+1 < len(exset)` is
`rest ≠ []` and `exset[m+1]` is the head of `rest`. -/
def moveUp (key : ℚ) (split : ℕ) : List Point → ℕ → ℕ
  | [], m => m
  | q :: rest, m => if q.getD split 0 = key then moveUp key split rest (m + 1) else m

/-- Model of the recursive builder `nk2` inside `New`.  The extra `fuel`
argument (always called with `fuel ≥ exset.length`, which every recursive
call preserves) makes the shrinking-sublist recursion structural. -/
def nk2F : ℕ → List Point → ℕ → KdNode
  | 0, _, _ => .nil
  | fuel + 1, exset, split =>
    if exset.length = 0 then .nil
    else
      let sorted := List.insertionSort (ptLE split) exset
      let m0 := exset.length / 2
      let d := sorted.getD m0 []
      let m := moveUp (d.getD split 0) split (sorted.drop (m0 + 1)) m0
      let s2 := if split + 1 = d.length then 0 else split + 1
      .node d split (nk2F fuel (sorted.take m) s2) (nk2F fuel (sorted.drop (m + 1)) s2)

/-- Model of `New`: build the tree from the points, keep `bounds`. -/
def New (pts : List Point) (bounds : HyperRect) : KdTree :=
  { n := nk2F pts.length pts 0, Bounds := bounds }

/-- Final contents of the caller's slice after `nk2` returns (the Go code
sorts `exset` in place and recurses on the two disjoint subslices
`exset[:m]` and `exset[m+1:]`, leaving the element at index `m` fixed). -/
def buildArrF : ℕ → List Point → ℕ → List Point
  | 0, exset, _ => exset
  | fuel + 1, exset, split =>
    if exset.length = 0 then exset
    else
      let sorted := List.insertionSort (ptLE split) exset
      let m0 := exset.length / 2
      let d := sorted.getD m0 []
      let m := moveUp (d.getD split 0) split (sorted.drop (m0 + 1)) m0
      let s2 := if split + 1 = d.length then 0 else split + 1
      buildArrF fuel (sorted.take m) s2 ++ sorted.getD m [] :: buildArrF fuel (sorted.drop (m + 1)) s2

/-- Final contents of the caller's slice after `New pts bounds` returns. -/
def newArr (pts : List Point) : List Point :=
  buildArrF pts.length pts 0

/-- A finite squared distance, seen as a value of the extended type
`WithTop ℚ` whose `⊤` models `math.Inf(1)`. -/
def D (q : ℚ) : WithTop ℚ := (q : WithTop ℚ)

/-- The part of one `nn` invocation that follows the recursive call into the
nearer subtree (`kdtree.go` lines 123-143): visit counting, tightening of
`maxDistSqd`, the hyperplane-distance early return, the pivot comparison and
the conditional recursion into the further subtree (`far`, a function of the
`maxDistSqd` passed to it). -/
def nnGo (pivot : Point) (s : ℕ) (target : Point)
    (nearRes : Option Point × WithTop ℚ × ℕ)
    (far : WithTop ℚ → Option Point × WithTop ℚ × ℕ)
    (maxDistSqd : WithTop ℚ) : Option Point × WithTop ℚ × ℕ :=
  let maxDistSqd1 : WithTop ℚ := if nearRes.2.1 < maxDistSqd then nearRes.2.1 else maxDistSqd
  let dHyper : ℚ := (pivot.getD s 0 - target.getD s 0) * (pivot.getD s 0 - target.getD s 0)
  if D dHyper > maxDistSqd1 then (nearRes.1, nearRes.2.1, 1 + nearRes.2.2)
  else
    let pd : WithTop ℚ := D (Sqd pivot target)
    let best2 : Option Point × WithTop ℚ × WithTop ℚ :=
      if pd < nearRes.2.1 then (some pivot, pd, pd) else (nearRes.1, nearRes.2.1, maxDistSqd1)
    let farRes := far best2.2.2
    if farRes.2.1 < best2.2.1 then (farRes.1, farRes.2.1, 1 + nearRes.2.2 + farRes.2.2)
    else (best2.1, best2.2.1, 1 + nearRes.2.2 + farRes.2.2)

/-- Model of the recursive search `nn`.  Returns
`(nearest, distSqd, nodesVisited)`.  The two branches duplicate the Go
near/far selection (`targetInLeft`) so that the recursion stays structural. -/
def nn : KdNode → Point → HyperRect → WithTop ℚ → Option Point × WithTop ℚ × ℕ
  | .nil, _, _, _ => (none, ⊤, 0)
  | .node pivot s l r, target, hr, maxDistSqd =>
    let ps := pivot.getD s 0
    let leftHr := { hr.Copy with Max := hr.Max.set s ps }
    let rightHr := { hr.Copy with Min := hr.Min.set s ps }
    if target.getD s 0 ≤ ps then
      nnGo pivot s target (nn l target leftHr maxDistSqd)
        (fun m => nn r target rightHr m) maxDistSqd
    else
      nnGo pivot s target (nn r target rightHr maxDistSqd)
        (fun m => nn l target leftHr m) maxDistSqd

/-- Model of `KdTree.Nearest`: `nn(t.n, p, t.Bounds, math.Inf(1))`. -/
def Nearest (t : KdTree) (p : Point) : Option Point × WithTop ℚ × ℕ :=
  nn t.n p t.Bounds ⊤

/-! ### Checked (panic-aware) search

The Go code indexes slices without any dimension check; an access out of
range aborts the program with an `index out of range` run-time panic.  The
following variant of the search makes every slice access explicit: `none`
is the panic, `some` the normal result.  The accesses, in the evaluation
order of `nn`: `pivot[s]` and the index checks of the two writes
`leftHr.Max[s] = pivot[s]` / `rightHr.Min[s] = pivot[s]` (lines 109-110),
`target[s]` (line 111), then after the near recursion `pivot.Sqd(target)`
(line 132), which ranges over `pivot` and accesses `target[dim]`. -/

/-- Post-near-recursion part of `nnChecked` (lines 123-143), with the panic
of `pivot.Sqd(target)` made explicit. -/
def nnCheckedGo (pivot : Point) (s : ℕ) (target : Point)
    (nearRes : Option Point × WithTop ℚ × ℕ)
    (far : WithTop ℚ → Option (Option Point × WithTop ℚ × ℕ))
    (maxDistSqd : WithTop ℚ) : Option (Option Point × WithTop ℚ × ℕ) :=
  let maxDistSqd1 : WithTop ℚ := if nearRes.2.1 < maxDistSqd then nearRes.2.1 else maxDistSqd
  let dHyper : ℚ := (pivot.getD s 0 - target.getD s 0) * (pivot.getD s 0 - target.getD s 0)
  if D dHyper > maxDistSqd1 then some (nearRes.1, nearRes.2.1, 1 + nearRes.2.2)
  else do
    let pdq ← SqdChecked pivot target
    let pd := D pdq
    let best2 : Option Point × WithTop ℚ × WithTop ℚ :=
      if pd < nearRes.2.1 then (some pivot, pd, pd) else (nearRes.1, nearRes.2.1, maxDistSqd1)
    let farRes ← far best2.2.2
    if farRes.2.1 < best2.2.1 then some (farRes.1, farRes.2.1, 1 + nearRes.2.2 + farRes.2.2)
    else some (best2.1, best2.2.1, 1 + nearRes.2.2 + farRes.2.2)

/-- Model of `nn` with every Go slice access checked; `none` models the Go
run-time panic `index out of range`. -/
def nnChecked : KdNode → Point → HyperRect → WithTop ℚ → Option (Option Point × WithTop ℚ × ℕ)
  | .nil, _, _, _ => some (none, ⊤, 0)
  | .node pivot s l r, target, hr, maxDistSqd => do
    let ps ← pivot[s]?
    let _ ← hr.Max[s]?
    let _ ← hr.Min[s]?
    let leftHr : HyperRect := { hr.Copy with Max := hr.Max.set s ps }
    let rightHr : HyperRect := { hr.Copy with Min := hr.Min.set s ps }
    let ts ← target[s]?
    if ts ≤ ps then do
      let nearRes ← nnChecked l target leftHr maxDistSqd
      nnCheckedGo pivot s target nearRes (fun m => nnChecked r target rightHr m) maxDistSqd
    else do
      let nearRes ← nnChecked r target rightHr maxDistSqd
      nnCheckedGo pivot s target nearRes (fun m => nnChecked l target leftHr m) maxDistSqd

/-- Model of `KdTree.Nearest` with checked slice accesses. -/
def NearestChecked (t : KdTree) (p : Point) : Option (Option Point × WithTop ℚ × ℕ) :=
  nnChecked t.n p t.Bounds ⊤

/-! ### Store-passing search

Go `Point` values are slices, i.e. references into a mutable store, and the
search narrows boxes by in-place writes (`leftHr.Max[s] = pivot[s]`) on
points obtained from `HyperRect.Copy`.  To state the frame property of
claim C8 the search is repeated in a store-passing style: the coordinate
data of every live box lives in an explicit `Store`, a box holds the two
cell indices of its corner points, `Copy` allocates fresh cells, and the
narrowing writes mutate cells in place. -/

/-- The mutable store of coordinate slices; a Go `Point` reference is an
index into it. -/
abbrev Store := List Point

/-- A `HyperRect` whose corner points are references into the store. -/
structure HyperRectRef where
  min : ℕ
  max : ℕ

/-- Allocate a fresh cell (Go `append(Point{}, src...)` allocates a new
backing array); returns the new store and the fresh cell's index. -/
def alloc (st : Store) (p : Point) : Store × ℕ :=
  (st ++ [p], st.length)

/-- Model of `HyperRect.Copy` under reference semantics: both corner slices
are copied into fresh cells. -/
def copyRef (st : Store) (hr : HyperRectRef) : Store × HyperRectRef :=
  let a1 := alloc st (st.getD hr.min [])
  let a2 := alloc a1.1 (st.getD hr.max [])
  (a2.1, { min := a1.2, max := a2.2 })

/-- Model of the in-place coordinate write `p[s] = v` on the point stored in
cell `i`. -/
def writeAt (st : Store) (i s : ℕ) (v : ℚ) : Store :=
  st.set i ((st.getD i []).set s v)

/-- Post-near-recursion part of `nnRef`, threading the store through the
conditional far recursion. -/
def nnGoRef (pivot : Point) (s : ℕ) (target : Point)
    (nearRes : (Option Point × WithTop ℚ × ℕ) × Store)
    (far : WithTop ℚ → Store → (Option Point × WithTop ℚ × ℕ) × Store)
    (maxDistSqd : WithTop ℚ) : (Option Point × WithTop ℚ × ℕ) × Store :=
  let res := nearRes.1
  let stN := nearRes.2
  let maxDistSqd1 : WithTop ℚ := if res.2.1 < maxDistSqd then res.2.1 else maxDistSqd
  let dHyper : ℚ := (pivot.getD s 0 - target.getD s 0) * (pivot.getD s 0 - target.getD s 0)
  if D dHyper > maxDistSqd1 then ((res.1, res.2.1, 1 + res.2.2), stN)
  else
    let pd : WithTop ℚ := D (Sqd pivot target)
    let best2 : Option Point × WithTop ℚ × WithTop ℚ :=
      if pd < res.2.1 then (some pivot, pd, pd) else (res.1, res.2.1, maxDistSqd1)
    let farRes := far best2.2.2 stN
    if farRes.1.2.1 < best2.2.1 then
      ((farRes.1.1, farRes.1.2.1, 1 + res.2.2 + farRes.1.2.2), farRes.2)
    else ((best2.1, best2.2.1, 1 + res.2.2 + farRes.1.2.2), farRes.2)

/-- Store-passing model of `nn`: the boxes are references, `Copy` allocates,
the narrowing writes mutate the fresh cells in place (lines 107-110). -/
def nnRef : KdNode → Point → HyperRectRef → WithTop ℚ → Store →
    (Option Point × WithTop ℚ × ℕ) × Store
  | .nil, _, _, _, st => ((none, ⊤, 0), st)
  | .node pivot s l r, target, hr, maxDistSqd, st =>
    let ps := pivot.getD s 0
    let c1 := copyRef st hr
    let c2 := copyRef c1.1 hr
    let leftHr := c1.2
    let rightHr := c2.2
    let st2 := writeAt c2.1 leftHr.max s ps
    let st3 := writeAt st2 rightHr.min s ps
    if target.getD s 0 ≤ ps then
      nnGoRef pivot s target (nnRef l target leftHr maxDistSqd st3)
        (fun m st4 => nnRef r target rightHr m st4) maxDistSqd
    else
      nnGoRef pivot s target (nnRef r target rightHr maxDistSqd st3)
        (fun m st4 => nnRef l target leftHr m st4) maxDistSqd

/-- Store-passing model of `KdTree.Nearest`: the caller passes the cell
indices of the tree's stored `Bounds`, which `nn` receives directly (no
entry copy). -/
def NearestRef (n : KdNode) (bounds : HyperRectRef) (target : Point) (st : Store) :
    (Option Point × WithTop ℚ × ℕ) × Store :=
  nnRef n target bounds ⊤ st

/-- Store `st2` agrees with `st` on every cell that existed in `st` (and
has at least those cells): the caller-visible part of the store is intact. -/
def Preserves (st st2 : Store) : Prop :=
  st.length ≤ st2.length ∧ ∀ i < st.length, st2[i]? = st[i]?

/-! ### Invariant predicates for the construction -/

/-- The immediate children of a node with split dimension `s` are split on
`(s + 1) % k` (trivially true of an absent child). -/
def childSplitOk (k s : ℕ) : KdNode → Prop
  | .nil => True
  | .node _ s2 _ _ => s2 = (s + 1) % k

/-- The partition invariant of claim C3, recursively at every node: left
points are `≤` the pivot coordinate, right points are `≥` it, and the
children's split dimensions cycle. -/
def PartitionInv (k : ℕ) : KdNode → Prop
  | .nil => True
  | .node d s l r =>
    (∀ q ∈ KdNode.points l, q.getD s 0 ≤ d.getD s 0) ∧
    (∀ q ∈ KdNode.points r, d.getD s 0 ≤ q.getD s 0) ∧
    childSplitOk k s l ∧ childSplitOk k s r ∧
    PartitionInv k l ∧ PartitionInv k r

/-- Consistency shape of a search result: either no point was found and the
distance is infinite, or the returned distance is exactly the squared
distance from the target to the returned point. -/
def ResOK (target : Point) (res : Option Point × WithTop ℚ × ℕ) : Prop :=
  (res.1 = none ∧ res.2.1 = ⊤) ∨ ∃ p, res.1 = some p ∧ res.2.1 = D (Sqd target p)

/-!
## Theorems
-/

@[simp] theorem D_lt_D {a b : ℚ} : D a < D b ↔ a < b := WithTop.coe_lt_coe

@[simp] theorem D_lt_top {a : ℚ} : D a < ⊤ := WithTop.coe_lt_top a

@[simp] theorem not_top_lt_D {a : ℚ} : ¬ (⊤ : WithTop ℚ) < D a := not_top_lt

@[simp] theorem D_inj {a b : ℚ} : D a = D b ↔ a = b := WithTop.coe_eq_coe

@[simp] theorem D_ne_top {a : ℚ} : D a ≠ ⊤ := WithTop.coe_ne_top

@[simp] theorem D_le_D {a b : ℚ} : D a ≤ D b ↔ a ≤ b := WithTop.coe_le_coe

@[simp] theorem D_le_top {a : ℚ} : D a ≤ (⊤ : WithTop ℚ) := le_top

@[simp] theorem not_top_le_D {a : ℚ} : ¬ (⊤ : WithTop ℚ) ≤ D a := by
  simp [top_le_iff]

/-- Squared distance is symmetric (the Go loop subtracts coordinatewise and
squares, so the order of the two points does not matter). -/
theorem Sqd_comm : ∀ p q : Point, Sqd p q = Sqd q p
  | [], [] => rfl
  | [], _ :: _ => rfl
  | _ :: _, [] => rfl
  | a :: p, b :: q => by
    simp only [Sqd, Sqd_comm p q]
    ring_nf

/-- The search never reads the bounding box it is handed: its result is the
same for any two boxes. -/
theorem nn_hr_irrel : ∀ (t : KdNode) (target : Point) (hr hr2 : HyperRect)
    (b : WithTop ℚ), nn t target hr b = nn t target hr2 b := by
  intro t
  induction t with
  | nil => intro target hr hr2 b; rfl
  | node pivot s l r ihl ihr =>
    intro target hr hr2 b
    simp only [nn]
    by_cases hc : target.getD s 0 ≤ pivot.getD s 0
    · rw [if_pos hc, if_pos hc, ihl target _ _ b]
      congr 1
      funext m
      exact ihr target _ _ m
    · rw [if_neg hc, if_neg hc, ihr target _ _ b]
      congr 1
      funext m
      exact ihl target _ _ m

/-- C6: querying a tree built from the empty point sequence returns no
point, infinite squared distance and zero nodes visited, for every
bounding box and every target. -/
theorem empty_tree_nearest (bounds : HyperRect) (target : Point) :
    Nearest (New [] bounds) target = (none, ⊤, 0) := rfl

/-- C5: the Wikipedia 2-d example: building from the six points with bounds
`{0,0}-{10,10}` and querying `{9,2}` returns the point `{8,1}`, squared
distance `2`, and exactly `3` nodes visited. -/
theorem wikipedia_example :
    Nearest (New [[2,3],[5,4],[9,6],[4,7],[8,1],[7,2]] ⟨[0,0],[10,10]⟩) [9,2]
      = (some [8,1], D 2, 3) := by
  norm_num [Nearest, New, nn, nnGo, nk2F, moveUp, ptLE, Sqd, HyperRect.Copy,
    List.insertionSort, List.orderedInsert, List.getD]

/-- C9: the result of `Nearest` is independent of the bounding box the tree
was built with: the box is narrowed and passed down but never consulted. -/
theorem nearest_bounds_independent (pts : List Point) (b1 b2 : HyperRect)
    (target : Point) :
    Nearest (New pts b1) target = Nearest (New pts b2) target :=
  nn_hr_irrel (nk2F pts.length pts 0) target b1 b2 ⊤

/-- C4 counterexample: `nn` on a single-node tree, target `{5}`, incoming
bound `4`.  The hyperplane distance `25` exceeds the bound, the early
return fires, and the result (no point, infinite distance) is worse than
the pivot's squared distance `25`: the pivot was never compared, so it is
not always a nearest-neighbor candidate. -/
theorem pruned_call_ignores_pivot :
    ¬ (nn (.node [0] 0 .nil .nil) [5] ⟨[0],[10]⟩ (D 4)).2.1 ≤ D (Sqd [0] [5]) := by
  norm_num [nn, nnGo, Sqd, HyperRect.Copy, List.getD]

/-- Helper for the amended C4: when the early return of lines 129-131 is
not taken (the squared hyperplane distance does not exceed the tightened
bound), the pivot comparison of line 132 runs and the result's distance is
at most the pivot's squared distance to the target. -/
theorem nnGo_le_pivot (pivot : Point) (s : ℕ) (target : Point)
    (nearRes : Option Point × WithTop ℚ × ℕ)
    (far : WithTop ℚ → Option Point × WithTop ℚ × ℕ) (b : WithTop ℚ)
    (h : ¬ D ((pivot.getD s 0 - target.getD s 0) * (pivot.getD s 0 - target.getD s 0)) >
      (if nearRes.2.1 < b then nearRes.2.1 else b)) :
    (nnGo pivot s target nearRes far b).2.1 ≤ D (Sqd pivot target) := by
  simp only [nnGo, if_neg h]
  by_cases hpd : D (Sqd pivot target) < nearRes.2.1
  · simp only [if_pos hpd]
    generalize far (D (Sqd pivot target)) = fr
    split
    · exact le_of_lt (by assumption)
    · exact le_refl _
  · simp only [if_neg hpd]
    have hn : nearRes.2.1 ≤ D (Sqd pivot target) := not_lt.mp hpd
    generalize far (if nearRes.2.1 < b then nearRes.2.1 else b) = fr
    split
    · exact le_of_lt (lt_of_lt_of_le (by assumption) hn)
    · exact hn

/-- C4 amended: in an invocation of `nn` on a non-absent node, the pivot is
a nearest-neighbor candidate (the returned squared distance is at most the
pivot's squared distance to the target) whenever the far subtree is not
pruned, i.e. whenever the squared hyperplane distance does not exceed the
bound tightened by the near-side result.  (When the far subtree is pruned
the early return skips the pivot comparison, see the counterexample.) -/
theorem pivot_candidate_when_not_pruned (pivot : Point) (s : ℕ)
    (l r : KdNode) (target : Point) (hr : HyperRect) (b : WithTop ℚ)
    (h : ¬ D ((pivot.getD s 0 - target.getD s 0) * (pivot.getD s 0 - target.getD s 0)) >
      (if (nn (if target.getD s 0 ≤ pivot.getD s 0 then l else r) target hr b).2.1 < b
       then (nn (if target.getD s 0 ≤ pivot.getD s 0 then l else r) target hr b).2.1 else b)) :
    (nn (.node pivot s l r) target hr b).2.1 ≤ D (Sqd pivot target) := by
  simp only [nn]
  by_cases hc : target.getD s 0 ≤ pivot.getD s 0
  · rw [if_pos hc] at h ⊢
    apply nnGo_le_pivot
    rw [nn_hr_irrel l target _ hr b]
    exact h
  · rw [if_neg hc] at h ⊢
    apply nnGo_le_pivot
    rw [nn_hr_irrel r target _ hr b]
    exact h

/-- Witness for the amended C4 at a concrete non-pruned invocation: a
single-node tree with pivot `{0}`, target `{1}`, infinite incoming bound. -/
theorem pivot_candidate_when_not_pruned_witness :
    (¬ D ((List.getD [(0:ℚ)] 0 0 - List.getD [(1:ℚ)] 0 0) *
        (List.getD [(0:ℚ)] 0 0 - List.getD [(1:ℚ)] 0 0)) >
      (if (nn (if List.getD [(1:ℚ)] 0 0 ≤ List.getD [(0:ℚ)] 0 0 then .nil else .nil)
            [1] ⟨[0],[10]⟩ ⊤).2.1 < ⊤
       then (nn (if List.getD [(1:ℚ)] 0 0 ≤ List.getD [(0:ℚ)] 0 0 then .nil else .nil)
            [1] ⟨[0],[10]⟩ ⊤).2.1 else ⊤)) ∧
    (nn (.node [0] 0 .nil .nil) [1] ⟨[0],[10]⟩ ⊤).2.1 ≤ D (Sqd [0] [1]) := by
  refine ⟨by norm_num [nn, List.getD], ?_⟩
  exact pivot_candidate_when_not_pruned [0] 0 .nil .nil [1] ⟨[0],[10]⟩ ⊤
    (by norm_num [nn, List.getD])

/-- C1 (code bug evaluation): on the tied input `{1,1}, {1,2}, {1,3}` with
target `{1,3}`, `New` stores the pre-advance median `{1,2}` as the pivot
but excludes the post-advance element `{1,3}` from both subtrees, so the
tree holds `{1,2}` twice and drops `{1,3}`; `Nearest` then returns `{1,2}`
at squared distance `1` although the input point `{1,3}` is at squared
distance `0` from the target. -/
theorem nearest_not_optimal_on_ties :
    Nearest (New [[1,1],[1,2],[1,3]] ⟨[0,0],[5,5]⟩) [1,3] = (some [1,2], D 1, 3) ∧
    ([1,3] : Point) ∈ [[1,1],[1,2],[1,3]] ∧
    D (Sqd [1,3] [1,3]) < D 1 := by
  refine ⟨?_, by simp, by norm_num [Sqd]⟩
  norm_num [Nearest, New, nn, nnGo, nk2F, moveUp, ptLE, Sqd, HyperRect.Copy,
    List.insertionSort, List.orderedInsert, List.getD]

/-- Helper: the (point, distance) part of an `nnGo` result comes from one of
three sources: the near-side result unchanged (early return, or pivot and
far both not closer), the pivot with its exact distance, or a far-side
result that was strictly closer (hence finite). -/
theorem nnGo_cases (pivot : Point) (s : ℕ) (target : Point)
    (nearRes : Option Point × WithTop ℚ × ℕ)
    (far : WithTop ℚ → Option Point × WithTop ℚ × ℕ) (b : WithTop ℚ) :
    ((nnGo pivot s target nearRes far b).1 = nearRes.1 ∧
      (nnGo pivot s target nearRes far b).2.1 = nearRes.2.1 ∧
      (D ((pivot.getD s 0 - target.getD s 0) * (pivot.getD s 0 - target.getD s 0)) >
          (if nearRes.2.1 < b then nearRes.2.1 else b) ∨
        ¬ D (Sqd pivot target) < nearRes.2.1)) ∨
    ((nnGo pivot s target nearRes far b).1 = some pivot ∧
      (nnGo pivot s target nearRes far b).2.1 = D (Sqd pivot target)) ∨
    (∃ m, (nnGo pivot s target nearRes far b).1 = (far m).1 ∧
      (nnGo pivot s target nearRes far b).2.1 = (far m).2.1 ∧
      (far m).2.1 < ⊤) := by
  simp only [nnGo]
  generalize hm1 : (if nearRes.2.1 < b then nearRes.2.1 else b) = m1
  by_cases he : D ((pivot.getD s 0 - target.getD s 0) * (pivot.getD s 0 - target.getD s 0)) > m1
  · rw [if_pos he]
    exact Or.inl ⟨rfl, rfl, Or.inl he⟩
  · rw [if_neg he]
    by_cases hpd : D (Sqd pivot target) < nearRes.2.1
    · rw [if_pos hpd]
      dsimp only
      by_cases hfar : (far (D (Sqd pivot target))).2.1 < D (Sqd pivot target)
      · rw [if_pos hfar]
        exact Or.inr (Or.inr ⟨_, rfl, rfl, lt_of_lt_of_le hfar le_top⟩)
      · rw [if_neg hfar]
        exact Or.inr (Or.inl ⟨rfl, rfl⟩)
    · rw [if_neg hpd]
      dsimp only
      by_cases hfar : (far m1).2.1 < nearRes.2.1
      · rw [if_pos hfar]
        exact Or.inr (Or.inr ⟨m1, rfl, rfl, lt_of_lt_of_le hfar le_top⟩)
      · rw [if_neg hfar]
        exact Or.inl ⟨rfl, rfl, Or.inr hpd⟩

/-- Helper: `nnGo` preserves the consistency shape of results. -/
theorem nnGo_resok (pivot : Point) (s : ℕ) (target : Point)
    (nearRes : Option Point × WithTop ℚ × ℕ)
    (far : WithTop ℚ → Option Point × WithTop ℚ × ℕ) (b : WithTop ℚ)
    (hN : ResOK target nearRes) (hF : ∀ m, ResOK target (far m)) :
    ResOK target (nnGo pivot s target nearRes far b) := by
  rcases nnGo_cases pivot s target nearRes far b with
    ⟨h1, h2, _⟩ | ⟨h1, h2⟩ | ⟨m, h1, h2, hlt⟩
  · rcases hN with ⟨g1, g2⟩ | ⟨p, g1, g2⟩
    · exact Or.inl ⟨h1.trans g1, h2.trans g2⟩
    · exact Or.inr ⟨p, h1.trans g1, h2.trans g2⟩
  · exact Or.inr ⟨pivot, h1, h2.trans (by rw [Sqd_comm])⟩
  · rcases hF m with ⟨g1, g2⟩ | ⟨q, g1, g2⟩
    · exact absurd (g2 ▸ hlt) (lt_irrefl _)
    · exact Or.inr ⟨q, h1.trans g1, h2.trans g2⟩

/-- Helper: every `nn` result is consistent: either no point and `⊤`, or a
point together with its exact squared distance to the target. -/
theorem nn_resok : ∀ (t : KdNode) (target : Point) (hr : HyperRect)
    (b : WithTop ℚ), ResOK target (nn t target hr b) := by
  intro t
  induction t with
  | nil => intro target hr b; exact Or.inl ⟨rfl, rfl⟩
  | node pivot s l r ihl ihr =>
    intro target hr b
    simp only [nn]
    split
    · exact nnGo_resok _ _ _ _ _ _ (ihl target _ b) (fun m => ihr target _ m)
    · exact nnGo_resok _ _ _ _ _ _ (ihr target _ b) (fun m => ihl target _ m)

/-- Helper: with an infinite incoming bound (the top-level call), `nnGo`
always returns a point, together with its exact squared distance. -/
theorem nnGo_some_top (pivot : Point) (s : ℕ) (target : Point)
    (nearRes : Option Point × WithTop ℚ × ℕ)
    (far : WithTop ℚ → Option Point × WithTop ℚ × ℕ)
    (hN : ResOK target nearRes) (hF : ∀ m, ResOK target (far m)) :
    ∃ p, (nnGo pivot s target nearRes far ⊤).1 = some p ∧
      (nnGo pivot s target nearRes far ⊤).2.1 = D (Sqd target p) := by
  rcases nnGo_cases pivot s target nearRes far ⊤ with
    ⟨h1, h2, hcond⟩ | ⟨h1, h2⟩ | ⟨m, h1, h2, hlt⟩
  · rcases hN with ⟨hn1, hn2⟩ | ⟨p, hp1, hp2⟩
    · rcases hcond with he | hpd
      · rw [hn2] at he
        rw [if_neg (lt_irrefl _)] at he
        exact absurd he not_top_lt
      · rw [hn2] at hpd
        exact absurd D_lt_top hpd
    · exact ⟨p, h1.trans hp1, h2.trans hp2⟩
  · exact ⟨pivot, h1, h2.trans (by rw [Sqd_comm])⟩
  · rcases hF m with ⟨g1, g2⟩ | ⟨q, g1, g2⟩
    · exact absurd (g2 ▸ hlt) (lt_irrefl _)
    · exact ⟨q, h1.trans g1, h2.trans g2⟩

/-- Helper: the builder returns a non-absent root on a non-empty input. -/
theorem nk2F_ne_nil (fuel : ℕ) (exset : List Point) (split : ℕ)
    (hf : exset.length ≤ fuel) (h : exset ≠ []) :
    nk2F fuel exset split ≠ .nil := by
  cases fuel with
  | zero =>
    exact absurd (List.length_eq_zero.mp (Nat.le_zero.mp hf)) h
  | succ n =>
    simp only [nk2F]
    rw [if_neg (by simpa using h)]
    exact fun hx => KdNode.noConfusion hx

/-- C2: on a non-empty input, `Nearest` returns a point `p` and a squared
distance equal to `Sqd target p` (the consistency property). -/
theorem nearest_consistent (pts : List Point) (bounds : HyperRect)
    (target : Point) (h : pts ≠ []) :
    ∃ p, (Nearest (New pts bounds) target).1 = some p ∧
      (Nearest (New pts bounds) target).2.1 = D (Sqd target p) := by
  have hroot : nk2F pts.length pts 0 ≠ .nil := nk2F_ne_nil _ _ _ le_rfl h
  unfold Nearest New
  cases ht : nk2F pts.length pts 0 with
  | nil => exact absurd ht hroot
  | node pivot s l r =>
    simp only [nn]
    split
    · exact nnGo_some_top _ _ _ _ _ (nn_resok l target _ ⊤) (fun m => nn_resok r target _ m)
    · exact nnGo_some_top _ _ _ _ _ (nn_resok r target _ ⊤) (fun m => nn_resok l target _ m)

/-- Witness for C2 at a concrete non-empty input. -/
theorem nearest_consistent_witness :
    ([[2,3],[5,4]] : List Point) ≠ [] ∧
    ∃ p, (Nearest (New [[2,3],[5,4]] ⟨[0,0],[10,10]⟩) [9,2]).1 = some p ∧
      (Nearest (New [[2,3],[5,4]] ⟨[0,0],[10,10]⟩) [9,2]).2.1 = D (Sqd [9,2] p) :=
  ⟨by simp, nearest_consistent [[2,3],[5,4]] ⟨[0,0],[10,10]⟩ [9,2] (by simp)⟩

/-- Helper: the advancing loop lands exactly past the run of elements whose
`split` coordinate equals the original median's. -/
theorem moveUp_eq (key : ℚ) (split : ℕ) : ∀ (rest : List Point) (m : ℕ),
    moveUp key split rest m
      = m + (rest.takeWhile (fun q => decide (q.getD split 0 = key))).length
  | [], m => by simp [moveUp]
  | q :: rest, m => by
    by_cases hq : q.getD split 0 = key
    · rw [moveUp, if_pos hq, moveUp_eq key split rest (m + 1),
        List.takeWhile_cons_of_pos (by simpa using hq), List.length_cons]
      omega
    · rw [moveUp, if_neg hq, List.takeWhile_cons_of_neg (by simpa using hq),
        List.length_nil]
      omega

/-- Helper: the loop never moves the index down. -/
theorem moveUp_ge (key : ℚ) (split : ℕ) (rest : List Point) (m : ℕ) :
    m ≤ moveUp key split rest m := by
  rw [moveUp_eq]
  omega

/-- Helper: the loop moves at most past the end of `rest`. -/
theorem moveUp_le (key : ℚ) (split : ℕ) (rest : List Point) (m : ℕ) :
    moveUp key split rest m ≤ m + rest.length := by
  rw [moveUp_eq]
  have := ( List.takeWhile_prefix (l := rest)
    (p := fun q => decide (q.getD split 0 = key))).length_le
  omega

/-- Helper: every element the loop skipped over has exactly the key
coordinate. -/
theorem moveUp_keys (key : ℚ) (split : ℕ) (rest : List Point) (m j : ℕ)
    (h1 : m < j) (h2 : j ≤ moveUp key split rest m)
    (hj : j - m - 1 < rest.length) :
    (rest[j - m - 1]).getD split 0 = key := by
  rw [moveUp_eq] at h2
  have ht : j - m - 1 <
      (rest.takeWhile (fun q => decide (q.getD split 0 = key))).length := by omega
  have hpre := List.takeWhile_prefix (l := rest)
    (p := fun q => decide (q.getD split 0 = key))
  have heq := hpre.getElem ht
  have hmem : (rest.takeWhile (fun q => decide (q.getD split 0 = key)))[j - m - 1]
      ∈ rest.takeWhile (fun q => decide (q.getD split 0 = key)) :=
    List.getElem_mem ht
  have hp := List.mem_takeWhile_imp hmem
  rw [heq] at hp
  simpa using hp

/-- Helper: every element strictly before the final pivot index has `split`
coordinate at most the pivot's. -/
theorem take_le_pivot (split : ℕ) (sorted : List Point)
    (hs : List.Pairwise (ptLE split) sorted) (m0 : ℕ) (hm0 : m0 < sorted.length) :
    ∀ q ∈ sorted.take (moveUp ((sorted.getD m0 []).getD split 0) split
        (sorted.drop (m0 + 1)) m0),
      q.getD split 0 ≤ (sorted.getD m0 []).getD split 0 := by
  intro q hq
  rw [List.mem_take_iff_getElem] at hq
  obtain ⟨j, hj, rfl⟩ := hq
  have hjm : j < moveUp ((sorted.getD m0 []).getD split 0) split
      (sorted.drop (m0 + 1)) m0 := lt_of_lt_of_le hj (min_le_left _ _)
  have hjlen : j < sorted.length := lt_of_lt_of_le hj (min_le_right _ _)
  have hd : sorted.getD m0 [] = sorted[m0] := List.getD_eq_getElem _ _ hm0
  rcases lt_trichotomy j m0 with hlt | heq | hgt
  · have hp := (List.pairwise_iff_getElem).mp hs j m0 hjlen hm0 hlt
    rw [← hd] at hp
    simpa [ptLE] using hp
  · subst heq
    exact le_of_eq (congrArg (fun p => List.getD p split 0) hd.symm)
  · have hdrop : j - m0 - 1 < (sorted.drop (m0 + 1)).length := by
      rw [List.length_drop]
      omega
    have hk := moveUp_keys ((sorted.getD m0 []).getD split 0) split
      (sorted.drop (m0 + 1)) m0 j hgt (le_of_lt hjm) hdrop
    have hix : (sorted.drop (m0 + 1))[j - m0 - 1] = sorted[j] := by
      rw [List.getElem_drop]
      congr 1
      omega
    rw [hix] at hk
    exact le_of_eq hk

/-- Helper: every element strictly after the final pivot index has `split`
coordinate at least the pivot's. -/
theorem drop_ge_pivot (split : ℕ) (sorted : List Point)
    (hs : List.Pairwise (ptLE split) sorted) (m0 : ℕ) (hm0 : m0 < sorted.length) :
    ∀ q ∈ sorted.drop (moveUp ((sorted.getD m0 []).getD split 0) split
        (sorted.drop (m0 + 1)) m0 + 1),
      (sorted.getD m0 []).getD split 0 ≤ q.getD split 0 := by
  intro q hq
  rw [List.mem_iff_getElem] at hq
  obtain ⟨j, hj, rfl⟩ := hq
  have hge : m0 ≤ moveUp ((sorted.getD m0 []).getD split 0) split
      (sorted.drop (m0 + 1)) m0 := moveUp_ge _ _ _ _
  have hd : sorted.getD m0 [] = sorted[m0] := List.getD_eq_getElem _ _ hm0
  rw [List.getElem_drop]
  have hidx : moveUp ((sorted.getD m0 []).getD split 0) split
      (sorted.drop (m0 + 1)) m0 + 1 + j < sorted.length := by
    rw [List.length_drop] at hj
    omega
  have hp := (List.pairwise_iff_getElem).mp hs m0
    (moveUp ((sorted.getD m0 []).getD split 0) split (sorted.drop (m0 + 1)) m0 + 1 + j)
    hm0 hidx (by omega)
  rw [← hd] at hp
  simpa [ptLE] using hp

/-- Helper: every point stored in a built subtree is an element of the
point set the subtree was built from. -/
theorem nk2F_points_subset : ∀ (fuel : ℕ) (exset : List Point) (split : ℕ),
    ∀ q ∈ KdNode.points (nk2F fuel exset split), q ∈ exset
  | 0, exset, split => by
    simp [nk2F, KdNode.points]
  | fuel + 1, exset, split => by
    by_cases h : exset.length = 0
    · simp [nk2F, h, KdNode.points]
    · intro q hq
      rw [nk2F, if_neg h] at hq
      simp only [KdNode.points, List.mem_cons, List.mem_append] at hq
      have hperm : List.Perm (List.insertionSort (ptLE split) exset) exset :=
        List.perm_insertionSort _ _
      have hm0 : exset.length / 2 < (List.insertionSort (ptLE split) exset).length := by
        rw [hperm.length_eq]
        omega
      rcases hq with rfl | hql | hqr
      · rw [List.getD_eq_getElem _ _ hm0]
        exact hperm.mem_iff.mp (List.getElem_mem hm0)
      · exact hperm.mem_iff.mp
          (List.mem_of_mem_take (nk2F_points_subset fuel _ _ q hql))
      · exact hperm.mem_iff.mp
          (List.mem_of_mem_drop (nk2F_points_subset fuel _ _ q hqr))

/-- Helper: a node built by `nk2F` carries the split dimension it was
called with. -/
theorem nk2F_node_split (fuel : ℕ) (exset : List Point) (split : ℕ)
    (d : Point) (s : ℕ) (l r : KdNode)
    (h : nk2F fuel exset split = .node d s l r) : s = split := by
  cases fuel with
  | zero => simp [nk2F] at h
  | succ n =>
    rw [nk2F] at h
    by_cases hl : exset.length = 0
    · rw [if_pos hl] at h
      exact absurd h (by simp)
    · rw [if_neg hl] at h
      simp only [KdNode.node.injEq] at h
      exact h.2.1.symm

/-- Helper: a child built on dimension `s2 = (s+1) % k` satisfies the
split-cycling condition. -/
theorem childSplitOk_nk2F (k s s2 fuel : ℕ) (e : List Point)
    (hs2 : s2 = (s + 1) % k) : childSplitOk k s (nk2F fuel e s2) := by
  cases hT : nk2F fuel e s2 with
  | nil => trivial
  | node dd ss ll rr =>
    have := nk2F_node_split fuel e s2 dd ss ll rr hT
    simp [childSplitOk, this, hs2]

/-- Helper: the partition invariant holds of every tree the builder
produces, by induction on the fuel. -/
theorem nk2F_partitionInv : ∀ (fuel : ℕ) (exset : List Point) (split k : ℕ),
    exset.length ≤ fuel → (∀ p ∈ exset, p.length = k) → (k = 0 ∨ split < k) →
    PartitionInv k (nk2F fuel exset split)
  | 0, exset, split, k, hf, _, _ => by
    simp [nk2F, PartitionInv]
  | fuel + 1, exset, split, k, hf, hlen, hsp => by
    by_cases h : exset.length = 0
    · simp [nk2F, h, PartitionInv]
    · rw [nk2F, if_neg h]
      have hperm : List.Perm (List.insertionSort (ptLE split) exset) exset :=
        List.perm_insertionSort _ _
      have hslen : (List.insertionSort (ptLE split) exset).length = exset.length :=
        hperm.length_eq
      have hsort : List.Pairwise (ptLE split) (List.insertionSort (ptLE split) exset) :=
        List.sorted_insertionSort _ _
      have hm0 : exset.length / 2 < (List.insertionSort (ptLE split) exset).length := by
        omega
      have hmge : exset.length / 2 ≤ moveUp
          (((List.insertionSort (ptLE split) exset).getD (exset.length / 2) []).getD split 0)
          split ((List.insertionSort (ptLE split) exset).drop (exset.length / 2 + 1))
          (exset.length / 2) := moveUp_ge _ _ _ _
      have hmle := moveUp_le
        (((List.insertionSort (ptLE split) exset).getD (exset.length / 2) []).getD split 0)
        split ((List.insertionSort (ptLE split) exset).drop (exset.length / 2 + 1))
        (exset.length / 2)
      rw [List.length_drop] at hmle
      have hdk : ((List.insertionSort (ptLE split) exset).getD (exset.length / 2) []).length
          = k := by
        apply hlen
        rw [List.getD_eq_getElem _ _ hm0]
        exact hperm.mem_iff.mp (List.getElem_mem hm0)
      have hsublen : ∀ q ∈ List.insertionSort (ptLE split) exset, q.length = k := by
        intro q hq
        exact hlen q (hperm.mem_iff.mp hq)
      have hs2 : (if split + 1 =
          ((List.insertionSort (ptLE split) exset).getD (exset.length / 2) []).length
          then 0 else split + 1) = (split + 1) % k := by
        rw [hdk]
        rcases hsp with hk0 | hsplt
        · subst hk0
          rw [if_neg (by omega), Nat.mod_zero]
        · by_cases he : split + 1 = k
          · rw [if_pos he, he, Nat.mod_self]
          · rw [if_neg he]
            exact (Nat.mod_eq_of_lt (by omega)).symm
      have hs2side : k = 0 ∨ (if split + 1 =
          ((List.insertionSort (ptLE split) exset).getD (exset.length / 2) []).length
          then 0 else split + 1) < k := by
        rcases hsp with hk0 | hsplt
        · exact Or.inl hk0
        · right
          rw [hs2]
          exact Nat.mod_lt _ (by omega)
      refine ⟨?_, ?_, ?_, ?_, ?_, ?_⟩
      · intro q hq
        exact take_le_pivot split _ hsort _ hm0 q
          (nk2F_points_subset fuel _ _ q hq)
      · intro q hq
        exact drop_ge_pivot split _ hsort _ hm0 q
          (nk2F_points_subset fuel _ _ q hq)
      · exact childSplitOk_nk2F k split _ fuel _ hs2
      · exact childSplitOk_nk2F k split _ fuel _ hs2
      · apply nk2F_partitionInv fuel _ _ k
        · rw [List.length_take]
          omega
        · intro q hq
          exact hsublen q (List.mem_of_mem_take hq)
        · exact hs2side
      · apply nk2F_partitionInv fuel _ _ k
        · rw [List.length_drop]
          omega
        · intro q hq
          exact hsublen q (List.mem_of_mem_drop hq)
        · exact hs2side

/-- C3: in every tree built by `New` from points of a common dimension `k`,
at every node the left subtree's points are `≤` the pivot coordinate on the
node's split dimension, the right subtree's points are `≥` it, and the
children's split dimension is `(s+1) % k`. -/
theorem New_partitionInv (k : ℕ) (pts : List Point) (bounds : HyperRect)
    (h : ∀ p ∈ pts, p.length = k) : PartitionInv k (New pts bounds).n :=
  nk2F_partitionInv pts.length pts 0 k le_rfl h
    (by rcases Nat.eq_zero_or_pos k with h0 | h0
        · exact Or.inl h0
        · exact Or.inr h0)

/-- Witness for C3 at a concrete input of dimension 2. -/
theorem New_partitionInv_witness :
    (∀ p ∈ ([[1,2],[3,4],[5,0]] : List Point), p.length = 2) ∧
    PartitionInv 2 (New [[1,2],[3,4],[5,0]] ⟨[0,0],[9,9]⟩).n :=
  ⟨by decide, New_partitionInv 2 [[1,2],[3,4],[5,0]] ⟨[0,0],[9,9]⟩ (by decide)⟩

/-- Helper: the final contents of the caller's slice are a permutation of
the original contents (the sort permutes, the recursions permute the two
disjoint subslices, the element at the final pivot index stays in place). -/
theorem buildArrF_perm : ∀ (fuel : ℕ) (exset : List Point) (split : ℕ),
    exset.length ≤ fuel → List.Perm (buildArrF fuel exset split) exset
  | 0, exset, _, _ => by
    simp [buildArrF]
  | fuel + 1, exset, split, hf => by
    by_cases h : exset.length = 0
    · simp [buildArrF, h]
    · rw [buildArrF, if_neg h]
      have hperm : List.Perm (List.insertionSort (ptLE split) exset) exset :=
        List.perm_insertionSort _ _
      have hslen := hperm.length_eq
      have hmge := moveUp_ge
        (((List.insertionSort (ptLE split) exset).getD (exset.length / 2) []).getD split 0)
        split ((List.insertionSort (ptLE split) exset).drop (exset.length / 2 + 1))
        (exset.length / 2)
      have hmle := moveUp_le
        (((List.insertionSort (ptLE split) exset).getD (exset.length / 2) []).getD split 0)
        split ((List.insertionSort (ptLE split) exset).drop (exset.length / 2 + 1))
        (exset.length / 2)
      rw [List.length_drop] at hmle
      have hmlt : moveUp
          (((List.insertionSort (ptLE split) exset).getD (exset.length / 2) []).getD split 0)
          split ((List.insertionSort (ptLE split) exset).drop (exset.length / 2 + 1))
          (exset.length / 2) < (List.insertionSort (ptLE split) exset).length := by omega
      have h1 := buildArrF_perm fuel
        ((List.insertionSort (ptLE split) exset).take (moveUp
          (((List.insertionSort (ptLE split) exset).getD (exset.length / 2) []).getD split 0)
          split ((List.insertionSort (ptLE split) exset).drop (exset.length / 2 + 1))
          (exset.length / 2)))
        (if split + 1 =
            ((List.insertionSort (ptLE split) exset).getD (exset.length / 2) []).length
          then 0 else split + 1)
        (by rw [List.length_take]; omega)
      have h2 := buildArrF_perm fuel
        ((List.insertionSort (ptLE split) exset).drop (moveUp
          (((List.insertionSort (ptLE split) exset).getD (exset.length / 2) []).getD split 0)
          split ((List.insertionSort (ptLE split) exset).drop (exset.length / 2 + 1))
          (exset.length / 2) + 1))
        (if split + 1 =
            ((List.insertionSort (ptLE split) exset).getD (exset.length / 2) []).length
          then 0 else split + 1)
        (by rw [List.length_drop]; omega)
      have hsplit : (List.insertionSort (ptLE split) exset).take (moveUp
            (((List.insertionSort (ptLE split) exset).getD (exset.length / 2) []).getD split 0)
            split ((List.insertionSort (ptLE split) exset).drop (exset.length / 2 + 1))
            (exset.length / 2)) ++
          (List.insertionSort (ptLE split) exset).getD (moveUp
            (((List.insertionSort (ptLE split) exset).getD (exset.length / 2) []).getD split 0)
            split ((List.insertionSort (ptLE split) exset).drop (exset.length / 2 + 1))
            (exset.length / 2)) [] ::
          (List.insertionSort (ptLE split) exset).drop (moveUp
            (((List.insertionSort (ptLE split) exset).getD (exset.length / 2) []).getD split 0)
            split ((List.insertionSort (ptLE split) exset).drop (exset.length / 2 + 1))
            (exset.length / 2) + 1)
          = List.insertionSort (ptLE split) exset := by
        rw [List.getD_eq_getElem _ _ hmlt, ← List.drop_eq_getElem_cons hmlt,
          List.take_append_drop]
      have hx : List.Perm ((List.insertionSort (ptLE split) exset).take (moveUp
            (((List.insertionSort (ptLE split) exset).getD (exset.length / 2) []).getD split 0)
            split ((List.insertionSort (ptLE split) exset).drop (exset.length / 2 + 1))
            (exset.length / 2)) ++
          (List.insertionSort (ptLE split) exset).getD (moveUp
            (((List.insertionSort (ptLE split) exset).getD (exset.length / 2) []).getD split 0)
            split ((List.insertionSort (ptLE split) exset).drop (exset.length / 2 + 1))
            (exset.length / 2)) [] ::
          (List.insertionSort (ptLE split) exset).drop (moveUp
            (((List.insertionSort (ptLE split) exset).getD (exset.length / 2) []).getD split 0)
            split ((List.insertionSort (ptLE split) exset).drop (exset.length / 2 + 1))
            (exset.length / 2) + 1)) exset := by
        rw [hsplit]
        exact hperm
      exact (h1.append (h2.cons _)).trans hx

/-- C10: `New` reorders the caller's slice in place: after the call the
slice holds exactly the same multiset of points (so no point's coordinates
were modified), while the order can observably change, as the two-point
example shows. -/
theorem newArr_perm_of_input :
    (∀ pts : List Point, List.Perm (newArr pts) pts) ∧
    newArr [[1,0],[0,0]] ≠ [[1,0],[0,0]] := by
  constructor
  · intro pts
    exact buildArrF_perm pts.length pts 0 le_rfl
  · norm_num [newArr, buildArrF, moveUp, ptLE, List.insertionSort,
      List.orderedInsert, List.getD]

/-- C7 counterexample: querying a tree built on 3-dimensional points with a
2-dimensional target does not fail with a defined error value: it panics
with an index out of range (in the model, the checked query evaluates to
`none`; the code defines no `InvalidDimension` condition at all). -/
theorem dim_mismatch_query_panics_eval :
    NearestChecked (New [[0,0,0],[1,1,1],[2,2,2]] ⟨[0,0,0],[3,3,3]⟩) [0,0] = none := by
  norm_num [NearestChecked, New, nnChecked, nnCheckedGo, SqdChecked, nk2F, moveUp,
    ptLE, HyperRect.Copy, List.insertionSort, List.orderedInsert, List.getD]

/-- C7 amended: on the tree built from the 3-dimensional example points,
querying any 2-dimensional target reaches `pivot.Sqd(target)` at a leaf and
panics with an index out of range (`none` in the checked model), instead of
failing with an `InvalidDimension` condition (which the code does not
define). -/
theorem dim_mismatch_query_panics (a b : ℚ) :
    NearestChecked (New [[0,0,0],[1,1,1],[2,2,2]] ⟨[0,0,0],[3,3,3]⟩) [a,b] = none := by
  norm_num [NearestChecked, New, nnChecked, nnCheckedGo, SqdChecked, nk2F, moveUp,
    ptLE, HyperRect.Copy, List.insertionSort, List.orderedInsert, List.getD]

/-- Helper: `Preserves` is reflexive. -/
theorem preserves_refl (st : Store) : Preserves st st :=
  ⟨le_rfl, fun _ _ => rfl⟩

/-- Helper: `Preserves` is transitive. -/
theorem preserves_trans {st1 st2 st3 : Store} (h1 : Preserves st1 st2)
    (h2 : Preserves st2 st3) : Preserves st1 st3 :=
  ⟨le_trans h1.1 h2.1, fun i hi => (h2.2 i (lt_of_lt_of_le hi h1.1)).trans (h1.2 i hi)⟩

/-- Helper: appending fresh cells preserves the existing ones. -/
theorem preserves_append {st st2 : Store} (l : List Point)
    (h : Preserves st st2) : Preserves st (st2 ++ l) := by
  refine ⟨le_trans h.1 (by simp), fun i hi => ?_⟩
  rw [List.getElem?_append_left (lt_of_lt_of_le hi h.1)]
  exact h.2 i hi

/-- Helper: writing to a cell at or beyond the original length preserves
the original cells. -/
theorem preserves_writeAt {st st2 : Store} (i s : ℕ) (v : ℚ)
    (h : Preserves st st2) (hi : st.length ≤ i) :
    Preserves st (writeAt st2 i s v) := by
  refine ⟨by rw [writeAt, List.length_set]; exact h.1, fun j hj => ?_⟩
  rw [writeAt, List.getElem?_set_ne (by omega)]
  exact h.2 j hj

/-- Helper: `nnGoRef` only touches the store through the far recursion. -/
theorem nnGoRef_preserves (pivot : Point) (s : ℕ) (target : Point)
    (nearRes : (Option Point × WithTop ℚ × ℕ) × Store)
    (far : WithTop ℚ → Store → (Option Point × WithTop ℚ × ℕ) × Store)
    (b : WithTop ℚ) (st : Store)
    (hN : Preserves st nearRes.2)
    (hF : ∀ m st4, Preserves st4 (far m st4).2) :
    Preserves st (nnGoRef pivot s target nearRes far b).2 := by
  simp only [nnGoRef]
  by_cases he : D ((pivot.getD s 0 - target.getD s 0) * (pivot.getD s 0 - target.getD s 0)) >
      (if nearRes.1.2.1 < b then nearRes.1.2.1 else b)
  · rw [if_pos he]
    exact hN
  · rw [if_neg he]
    by_cases hpd : D (Sqd pivot target) < nearRes.1.2.1
    · rw [if_pos hpd]
      dsimp only
      by_cases hfar : (far (D (Sqd pivot target)) nearRes.2).1.2.1 < D (Sqd pivot target)
      · rw [if_pos hfar]
        exact preserves_trans hN (hF _ _)
      · rw [if_neg hfar]
        exact preserves_trans hN (hF _ _)
    · rw [if_neg hpd]
      dsimp only
      by_cases hfar : (far (if nearRes.1.2.1 < b then nearRes.1.2.1 else b)
          nearRes.2).1.2.1 < nearRes.1.2.1
      · rw [if_pos hfar]
        exact preserves_trans hN (hF _ _)
      · rw [if_neg hfar]
        exact preserves_trans hN (hF _ _)

/-- Helper: one recursive step of `nnRef` (two `Copy` allocations and the
two narrowing writes, which hit only the four fresh cells) preserves every
pre-existing cell; with the recursive calls, so does the whole search. -/
theorem nnRef_preserves : ∀ (t : KdNode) (target : Point) (hr : HyperRectRef)
    (b : WithTop ℚ) (st : Store), Preserves st (nnRef t target hr b st).2 := by
  intro t
  induction t with
  | nil => intro target hr b st; exact preserves_refl st
  | node pivot s l r ihl ihr =>
    intro target hr b st
    simp only [nnRef, copyRef, alloc]
    have hc2 : Preserves st ((st ++ [st.getD hr.min []] ++ [st.getD hr.max []])
        ++ [(st ++ [st.getD hr.min []] ++ [st.getD hr.max []]).getD hr.min []]
        ++ [(st ++ [st.getD hr.min []] ++ [st.getD hr.max []]).getD hr.max []]) := by
      refine preserves_append _ (preserves_append _ (preserves_append _
        (preserves_append _ (preserves_refl st))))
    have hst3 : Preserves st (writeAt (writeAt ((st ++ [st.getD hr.min []] ++
        [st.getD hr.max []]) ++ [(st ++ [st.getD hr.min []] ++
        [st.getD hr.max []]).getD hr.min []] ++ [(st ++ [st.getD hr.min []] ++
        [st.getD hr.max []]).getD hr.max []]) (st ++ [st.getD hr.min []]).length s
        (pivot.getD s 0)) (st ++ [st.getD hr.min []] ++ [st.getD hr.max []]).length s
        (pivot.getD s 0)) := by
      refine preserves_writeAt _ _ _ (preserves_writeAt _ _ _ hc2 ?_) ?_
      · simp
      · simp
    by_cases hc : target.getD s 0 ≤ pivot.getD s 0
    · rw [if_pos hc]
      exact nnGoRef_preserves _ _ _ _ _ _ _
        (preserves_trans hst3 (ihl target _ b _)) (fun m st4 => ihr target _ m st4)
    · rw [if_neg hc]
      exact nnGoRef_preserves _ _ _ _ _ _ _
        (preserves_trans hst3 (ihr target _ b _)) (fun m st4 => ihl target _ m st4)

/-- C8: the store-passing search modifies no cell that existed before the
call: every box narrowing happens on freshly allocated copies, so the
caller's `Bounds` corner slices — and any box a sibling branch holds — have
exactly the same coordinate values after `Nearest` returns as before. -/
theorem nearestRef_frame (n : KdNode) (bounds : HyperRectRef) (target : Point)
    (st : Store) (i : ℕ) (hi : i < st.length) :
    ((NearestRef n bounds target st).2)[i]? = st[i]? :=
  (nnRef_preserves n target bounds ⊤ st).2 i hi

/-- Witness for C8 at a concrete store: a one-node tree whose bounds occupy
cells 0 and 1 of the store. -/
theorem nearestRef_frame_witness :
    (0 < ([[0],[10]] : Store).length) ∧
    ((NearestRef (.node [5] 0 .nil .nil) ⟨0, 1⟩ [7] [[0],[10]]).2)[0]?
      = ([[0],[10]] : Store)[0]? :=
  ⟨by decide, nearestRef_frame (.node [5] 0 .nil .nil) ⟨0, 1⟩ [7] [[0],[10]] 0 (by decide)⟩

end Kdtree
